import Mathlib

/-!
Verification of the neural-operator repository's core algorithms against its
natural-language specification.

The development shallowly embeds, from the Python sources:

* `segment_csr` (src/neuralop/layers/segment_csr.py): the CSR segment reducer,
  including its in-place mutation of `src` (Python's `accum = src[start]`
  creates a view of a row and `accum += ...` / `accum /= ...` write through
  that view) and its unguarded division by the neighborhood count.  Scalar
  entries are modelled by `FVal`, rationals extended with a single absorbing
  `nonfinite` element standing for the IEEE non-finite values (`inf`/`nan`)
  that float division by zero produces.
* `get_coeff_quantile_idx` and the calibration scale-factor computation
  (src/scripts/train_uqno_darcy.py).
* `UQNODataProcessor.postprocess` (src/scripts/train_uqno_darcy.py).
* `RNO.predict` and `RNO.__init__` (src/neuralop/models/rno.py).
-/

/-! ### Value model for float tensor entries -/

/-- A float value: either an exact finite value (modelled by a rational;
rounding is abstracted away) or a non-finite value (`inf`/`nan`). -/
inductive FVal where
  | fin : ℚ → FVal
  | nonfinite : FVal
deriving DecidableEq, Repr

/-- Float addition: finite plus finite is exact, anything involving a
non-finite operand is non-finite. -/
def fadd : FVal → FVal → FVal
  | FVal.fin a, FVal.fin b => FVal.fin (a + b)
  | _, _ => FVal.nonfinite

/-- Float division by an integer count: division by zero is non-finite
(`x/0` is `inf` or `nan` in IEEE arithmetic), otherwise exact. -/
def fdiv : FVal → ℤ → FVal
  | FVal.fin a, n => if n = 0 then FVal.nonfinite else FVal.fin (a / (n : ℚ))
  | FVal.nonfinite, _ => FVal.nonfinite

/-- A feature row of `src` (the trailing feature axis of the tensor). -/
abbrev Row := List FVal

/-- Elementwise addition of two feature rows (torch broadcasting of two
equal-shape rows). -/
def vadd (r s : Row) : Row := List.zipWith fadd r s

/-- Elementwise division of a feature row by an integer count. -/
def vdivz (r : Row) (n : ℤ) : Row := r.map (fdiv · n)

/-- An all-zero feature row of width `d` (a row of `torch.zeros`). -/
def vzero (d : ℕ) : Row := List.replicate d (FVal.fin 0)

/-- The row of `src` at index `j` (defaulting to `[]`, used only in-bounds). -/
def rowAt (src : List Row) (j : ℕ) : Row := src[j]?.getD []

/-! ### segment_csr, embedded from src/neuralop/layers/segment_csr.py

The Python loop for group `i` starting at `start` with `n = indptr[i+1] -
indptr[i]` neighbors does: `accum = src[start]` (a view!), then
`accum += src[start + j]` for `j = 1 .. n-1`, then in mean mode
`accum /= n`, then `out[i] = accum`.  Because `accum` aliases `src[start]`,
the final value of the accumulator is written back into `src` at `start`
(when no in-place op runs, i.e. sum mode with `n ≤ 1`, the written value
equals the original row, so writing unconditionally is value-faithful).
The loop `break`s at the first `start == len(src)`. -/

/-- Sequentially add the rows of `src` at the given indices to `acc`
(the `accum += src[start + j]` loop); an out-of-range read is an
`IndexError`. -/
def addRows (src : List Row) : List ℕ → Row → Except String Row
  | [], acc => Except.ok acc
  | j :: js, acc =>
    match src[j]? with
    | none => Except.error "IndexError"
    | some r => addRows src js (vadd acc r)

/-- The reduction applied after accumulation: mean mode divides by the
neighbor count `n` (unguarded, exactly as in the source), sum mode does
nothing. -/
def applyMode (mode : String) (acc : Row) (n : ℤ) : Row :=
  if mode = "mean" then vdivz acc n else acc

/-- The `for i, start in enumerate(indptr[:-1])` loop of `segment_csr`.
`ps` holds the `(indptr[i], indptr[i+1])` pairs still to process, `i` the
current output index, `out` the output buffer and `src` the (mutable!)
source rows. Returns the final `(out, src)` pair. -/
def segLoop (mode : String) : List (ℕ × ℕ) → ℕ → List Row → List Row →
    Except String (List Row × List Row)
  | [], _, out, src => Except.ok (out, src)
  | (start, stop) :: ps, i, out, src =>
    if start = src.length then Except.ok (out, src)
    else
      match src[start]? with
      | none => Except.error "IndexError"
      | some first =>
        match addRows src
            (List.range' (start + 1) ((stop : ℤ) - (start : ℤ) - 1).toNat) first with
        | Except.error e => Except.error e
        | Except.ok acc =>
          let acc2 := applyMode mode acc ((stop : ℤ) - (start : ℤ))
          segLoop mode ps (i + 1) (out.set i acc2) (src.set start acc2)

/-- `segment_csr src indptr reduce` from src/neuralop/layers/segment_csr.py.
`d` is the trailing feature width carried by the tensor's shape (used by
`torch.zeros(output_shape)`).  Returns the output together with the final
state of the caller's `src` tensor (which the Python code mutates through
the `accum` view). -/
def segment_csr (d : ℕ) (src : List Row) (indptr : List ℕ) (mode : String) :
    Except String (List Row × List Row) :=
  if mode ≠ "mean" ∧ mode ≠ "sum" then Except.error "ValueError"
  else if indptr.length = 0 then Except.error "RuntimeError"
  else segLoop mode (indptr.zip indptr.tail) 0
    (List.replicate (indptr.length - 1) (vzero d)) src

/-! ### The specification-level group aggregate -/

/-- The rows `src[a:b]` of the (original) source. -/
def sliceRows (src : List Row) (a b : ℕ) : List Row :=
  (List.range' a (b - a)).map (rowAt src)

/-- Elementwise sum of a nonempty list of rows (left fold, as the
accumulation loop computes it). -/
def elemSum : List Row → Row
  | [] => []
  | r :: rs => rs.foldl vadd r

/-- The spec's aggregate for a group `[a, b)`: elementwise sum of
`src[a:b]`, divided by the group length in mean mode. -/
def groupAgg (mode : String) (src : List Row) (a b : ℕ) : Row :=
  if mode = "mean" then vdivz (elemSum (sliceRows src a b)) ((b : ℤ) - (a : ℤ))
  else elemSum (sliceRows src a b)

/-- View an `Except` as a sum, to transport decidable equality. -/
def exceptToSum {ε α : Type} : Except ε α → ε ⊕ α
  | Except.error e => Sum.inl e
  | Except.ok a => Sum.inr a

instance {ε α : Type} [DecidableEq ε] [DecidableEq α] : DecidableEq (Except ε α) :=
  fun x y =>
    decidable_of_iff (exceptToSum x = exceptToSum y)
      (by cases x <;> cases y <;> simp [exceptToSum])

/-- C4: a zero-length group whose start index (0) is strictly less than
`len(src)` (1), in mean mode, performs the unguarded division
`accum /= 0`: `0.0/0` is NaN, and the resulting non-finite value is
stored, unflagged, both in the output entry and (through the aliasing
view) in `src` itself — the code neither zero-fills nor raises. -/
theorem segment_csr_mean_empty_group_divzero :
    segment_csr 1 [[FVal.fin 0]] [0, 0] "mean" =
      Except.ok ([[FVal.nonfinite]], [[FVal.nonfinite]]) := by
  norm_num [segment_csr, segLoop, addRows, applyMode, vadd, vdivz, vzero, fadd, fdiv,
    List.range']

/-- C9: `segment_csr` is not pure in `src`: already on the plain input
`src = [[1],[2]]`, `indptr = [0,2]`, sum mode, the in-place `accum +=`
through the `src[start]` view overwrites the group's first row with the
aggregate, so the caller's `src` ends as `[[3],[2]] ≠ [[1],[2]]`. -/
theorem segment_csr_sum_mutates_src :
    segment_csr 1 [[FVal.fin 1], [FVal.fin 2]] [0, 2] "sum" =
        Except.ok ([[FVal.fin 3]], [[FVal.fin 3], [FVal.fin 2]]) ∧
      [[FVal.fin 3], [FVal.fin 2]] ≠ [[FVal.fin 1], [FVal.fin 2]] := by
  constructor
  · norm_num [segment_csr, segLoop, addRows, applyMode, vadd, vdivz, vzero, fadd, fdiv,
      List.range']
    decide
  · decide

/-! ### Loop invariants for segment_csr -/

/-- The consecutive `(indptr[i], indptr[i+1])` pairs of a non-decreasing
offset list whose last entry is at most `len`, starting at offset `a`:
each pair is ordered, each pair's start is the previous pair's stop, and
the final stop is at most `len`. -/
def PairChain (len : ℕ) : ℕ → List (ℕ × ℕ) → Prop
  | a, [] => a ≤ len
  | a, q :: ps => q.1 = a ∧ a ≤ q.2 ∧ PairChain len q.2 ps

theorem PairChain.start_le {len : ℕ} :
    ∀ {ps : List (ℕ × ℕ)} {a : ℕ}, PairChain len a ps → a ≤ len := by
  intro ps
  induction ps with
  | nil => intro a h; exact h
  | cons q ps ih => intro a h; exact le_trans h.2.1 (ih h.2.2)

theorem pairChain_all_eq_len {len : ℕ} :
    ∀ {ps : List (ℕ × ℕ)} {a : ℕ}, PairChain len a ps → a = len →
      ∀ p ∈ ps, p.1 = len ∧ p.2 = len := by
  intro ps
  induction ps with
  | nil => intro a _ _ p hp; cases hp
  | cons q ps ih =>
    intro a hch ha p hp
    obtain ⟨hq1, hab, hrest⟩ := hch
    have hb : q.2 = len := le_antisymm hrest.start_le (ha ▸ hab)
    rcases List.mem_cons.mp hp with hp | hp
    · exact ⟨by rw [hp, hq1]; exact ha, by rw [hp]; exact hb⟩
    · exact ih hrest hb p hp

theorem rowAt_mem {src : List Row} {j : ℕ} (hj : j < src.length) :
    rowAt src j ∈ src := by
  unfold rowAt
  rw [List.getElem?_eq_getElem hj]
  exact List.getElem_mem hj

/-- `addRows` succeeds on in-bounds indices and computes the left fold of
elementwise addition. -/
theorem addRows_ok (src : List Row) (js : List ℕ) (acc : Row)
    (h : ∀ j ∈ js, j < src.length) :
    addRows src js acc =
      Except.ok (js.foldl (fun r j => vadd r (rowAt src j)) acc) := by
  induction js generalizing acc with
  | nil => rfl
  | cons j js ih =>
    have hj : j < src.length := h j (List.mem_cons_self j js)
    have hrow : src[j]? = some (rowAt src j) := by
      unfold rowAt
      rw [List.getElem?_eq_getElem hj]
      rfl
    simp only [addRows, hrow, List.foldl_cons]
    exact ih (vadd acc (rowAt src j)) (fun j' hj' => h j' (List.mem_cons_of_mem j hj'))

theorem foldl_vadd_congr {s1 s2 : List Row} (js : List ℕ) (acc : Row)
    (h : ∀ j ∈ js, s1[j]? = s2[j]?) :
    js.foldl (fun r j => vadd r (rowAt s1 j)) acc =
      js.foldl (fun r j => vadd r (rowAt s2 j)) acc := by
  induction js generalizing acc with
  | nil => rfl
  | cons j js ih =>
    have hrow : rowAt s1 j = rowAt s2 j := by
      unfold rowAt
      rw [h j (List.mem_cons_self j js)]
    simp only [List.foldl_cons, hrow]
    exact ih _ (fun j' hj' => h j' (List.mem_cons_of_mem j hj'))

theorem vadd_length {r s : Row} {d : ℕ} (hr : r.length = d) (hs : s.length = d) :
    (vadd r s).length = d := by
  unfold vadd
  rw [List.length_zipWith, hr, hs, min_self]

theorem foldl_vadd_length {src : List Row} {d : ℕ} (js : List ℕ) (acc : Row)
    (hacc : acc.length = d) (h : ∀ j ∈ js, (rowAt src j).length = d) :
    (js.foldl (fun r j => vadd r (rowAt src j)) acc).length = d := by
  induction js generalizing acc with
  | nil => exact hacc
  | cons j js ih =>
    simp only [List.foldl_cons]
    exact ih _ (vadd_length hacc (h j (List.mem_cons_self j js)))
      (fun j' hj' => h j' (List.mem_cons_of_mem j hj'))

theorem applyMode_length {mode : String} {acc : Row} {n : ℤ} {d : ℕ}
    (hacc : acc.length = d) : (applyMode mode acc n).length = d := by
  unfold applyMode vdivz
  split
  · rw [List.length_map]; exact hacc
  · exact hacc

/-- Main loop invariant: on a well-formed chain of index pairs, the loop of
`segment_csr` succeeds, and writes to `out[i + m]` the aggregate of group
`m` over the ORIGINAL source values whenever the group is nonempty, while
leaving `out[i + m]` untouched for groups starting at the end of `src`.
`src₀` is the source as it was before the loop started; `src` is its
current (partially overwritten) state, which still agrees with `src₀` at
all indices `≥ a`, the start of the first unprocessed group. -/
theorem segLoop_spec (mode : String) (d : ℕ) (src₀ : List Row) :
    ∀ (ps : List (ℕ × ℕ)) (a i : ℕ) (out src : List Row),
      PairChain src₀.length a ps →
      src.length = src₀.length →
      (∀ k, a ≤ k → src[k]? = src₀[k]?) →
      (mode = "mean" → ∀ p ∈ ps, p.1 < p.2 ∨ p.1 = src₀.length) →
      i + ps.length ≤ out.length →
      (∀ r ∈ src, r.length = d) →
      (∀ r ∈ out, r.length = d) →
      ∃ out' src',
        segLoop mode ps i out src = Except.ok (out', src') ∧
        out'.length = out.length ∧
        (∀ r ∈ out', r.length = d) ∧
        (∀ k, k < i → out'[k]? = out[k]?) ∧
        (∀ m a' b', ps[m]? = some (a', b') →
          (a' < b' → out'[i + m]? = some (groupAgg mode src₀ a' b')) ∧
          (a' = src₀.length → out'[i + m]? = out[i + m]?)) := by
  intro ps
  induction ps with
  | nil =>
    intro a i out src hch hlen hagree hmean hout hrect_src hrect_out
    refine ⟨out, src, rfl, rfl, hrect_out, fun k _ => rfl, ?_⟩
    intro m a' b' hm
    simp at hm
  | cons q ps ih =>
    intro a0 i out src hch hlen hagree hmean hout hrect_src hrect_out
    obtain ⟨a, b⟩ := q
    obtain ⟨hq1, hab, hrest⟩ := hch
    subst hq1
    dsimp only at hagree hab hrest
    by_cases hstart : a = src.length
    · -- break: all remaining groups start at the end of src
      refine ⟨out, src, by simp [segLoop, hstart], rfl, hrect_out,
        fun k _ => rfl, ?_⟩
      have hch2 : PairChain src₀.length a ((a, b) :: ps) := ⟨rfl, hab, hrest⟩
      have hall := pairChain_all_eq_len hch2 (by rw [hstart, hlen])
      intro m a' b' hm
      have hpmem : (a', b') ∈ (a, b) :: ps := by
        have : m < ((a, b) :: ps).length := by
          by_contra hc
          rw [List.getElem?_eq_none (by omega)] at hm
          exact Option.noConfusion hm
        rw [List.getElem?_eq_getElem this] at hm
        exact (Option.some_inj.mp hm) ▸ List.getElem_mem this
      have h1 : a' = src₀.length := (hall _ hpmem).1
      have h2 : b' = src₀.length := (hall _ hpmem).2
      exact ⟨fun hlt => absurd hlt (by omega), fun _ => rfl⟩
    · -- process group (a, b)
      have hblen : b ≤ src₀.length := hrest.start_le
      have halen : a < src.length := by omega
      have hfirst : src[a]? = some (rowAt src a) := by
        unfold rowAt
        rw [List.getElem?_eq_getElem halen]
        rfl
      have hcnt : ((b : ℤ) - (a : ℤ) - 1).toNat = b - a - 1 := by omega
      set js := List.range' (a + 1) (b - a - 1) with hjs
      have hbound : ∀ j ∈ js, j < src.length := by
        intro j hj
        rw [hjs] at hj
        have := List.mem_range'_1.mp hj
        omega
      have haddok := addRows_ok src js (rowAt src a) hbound
      set acc := js.foldl (fun r j => vadd r (rowAt src j)) (rowAt src a) with hacc
      set acc2 := applyMode mode acc ((b : ℤ) - (a : ℤ)) with hacc2
      have hacc_val : a < b → acc = elemSum (sliceRows src₀ a b) := by
        intro hlt
        have hfirst_eq : rowAt src a = rowAt src₀ a := by
          unfold rowAt
          rw [hagree a le_rfl]
        have hcong : acc = js.foldl (fun r j => vadd r (rowAt src₀ j)) (rowAt src₀ a) := by
          rw [hacc, hfirst_eq]
          exact foldl_vadd_congr js _ (fun j hj => hagree j
            (by have := List.mem_range'_1.mp (hjs ▸ hj); omega))
        rw [hcong]
        unfold sliceRows
        have hsplit : b - a = (b - a - 1) + 1 := by omega
        rw [hsplit, List.range'_succ, List.map_cons]
        have helem : elemSum (rowAt src₀ a ::
              (List.range' (a + 1) (b - a - 1)).map (rowAt src₀)) =
            ((List.range' (a + 1) (b - a - 1)).map (rowAt src₀)).foldl vadd
              (rowAt src₀ a) := rfl
        rw [helem, List.foldl_map, ← hjs]
      have hacc_len : acc.length = d :=
        foldl_vadd_length js _ (hrect_src _ (rowAt_mem halen))
          (fun j hj => hrect_src _ (rowAt_mem (hbound j hj)))
      have hacc2_len : acc2.length = d := applyMode_length hacc_len
      have hagree' : ∀ k, b ≤ k → (src.set a acc2)[k]? = src₀[k]? := by
        intro k hk
        by_cases hka : a = k
        · subst hka
          have hba : b = a := le_antisymm hk hab
          have hmode : ¬ (mode = "mean") := by
            intro hmm
            rcases hmean hmm (a, b) (List.mem_cons_self _ _) with h1 | h1
            · have h1' : a < b := h1
              omega
            · have h1' : a = src₀.length := h1
              exact hstart (h1'.trans hlen.symm)
          have hjs_nil : js = [] := by
            rw [hjs]
            have hz : b - a - 1 = 0 := by omega
            rw [hz]
            rfl
          have hacc2_first : acc2 = rowAt src a := by
            rw [hacc2, applyMode, if_neg hmode, hacc, hjs_nil]
            rfl
          rw [List.getElem?_set_eq_of_lt _ halen, hacc2_first, ← hfirst]
          exact hagree a le_rfl
        · rw [List.getElem?_set_ne hka]
          exact hagree k (le_trans hab hk)
      have hmean' : mode = "mean" → ∀ p ∈ ps, p.1 < p.2 ∨ p.1 = src₀.length :=
        fun hmm p hp => hmean hmm p (List.mem_cons_of_mem _ hp)
      have hout' : (i + 1) + ps.length ≤ (out.set i acc2).length := by
        rw [List.length_set]
        simp only [List.length_cons] at hout
        omega
      have hrect_src' : ∀ r ∈ src.set a acc2, r.length = d := by
        intro r hr
        rcases List.mem_or_eq_of_mem_set hr with hr | hr
        · exact hrect_src r hr
        · rw [hr]; exact hacc2_len
      have hrect_out' : ∀ r ∈ out.set i acc2, r.length = d := by
        intro r hr
        rcases List.mem_or_eq_of_mem_set hr with hr | hr
        · exact hrect_out r hr
        · rw [hr]; exact hacc2_len
      have hlen' : (src.set a acc2).length = src₀.length := by
        rw [List.length_set]
        exact hlen
      obtain ⟨out2, src2, heq, hlen2, hrect2, hbefore2, hgroups2⟩ :=
        ih b (i + 1) (out.set i acc2) (src.set a acc2) hrest hlen' hagree' hmean'
          hout' hrect_src' hrect_out'
      have hiout : i < out.length := by
        simp only [List.length_cons] at hout
        omega
      refine ⟨out2, src2, ?_, ?_, hrect2, ?_, ?_⟩
      · show segLoop mode ((a, b) :: ps) i out src = Except.ok (out2, src2)
        simp only [segLoop, if_neg hstart, hfirst]
        rw [hcnt, ← hjs, haddok]
        exact heq
      · rw [hlen2, List.length_set]
      · intro k hk
        rw [hbefore2 k (by omega), List.getElem?_set_ne (by omega : i ≠ k)]
      · intro m a' b' hm
        cases m with
        | zero =>
          rw [List.getElem?_cons_zero] at hm
          have hpq := Option.some_inj.mp hm
          rw [Prod.mk.injEq] at hpq
          obtain ⟨rfl, rfl⟩ := hpq
          constructor
          · intro hlt
            rw [Nat.add_zero, hbefore2 i (Nat.lt_succ_self i),
              List.getElem?_set_eq_of_lt _ hiout]
            congr 1
            rw [hacc2, applyMode, groupAgg]
            by_cases hm2 : mode = "mean"
            · rw [if_pos hm2, if_pos hm2, hacc_val hlt]
            · rw [if_neg hm2, if_neg hm2, hacc_val hlt]
          · intro hlen_a
            exact absurd (hlen.symm ▸ hlen_a : a = src.length) hstart
        | succ m' =>
          have hm' : ps[m']? = some (a', b') := by
            rw [List.getElem?_cons_succ] at hm
            exact hm
          have hgr := hgroups2 m' a' b' hm'
          have hidx : i + (m' + 1) = (i + 1) + m' := by omega
          constructor
          · intro hlt
            rw [hidx]
            exact hgr.1 hlt
          · intro ha'
            rw [hidx, hgr.2 ha', List.getElem?_set_ne (by omega : i ≠ i + 1 + m')]

theorem pairChain_of_sorted {len : ℕ} :
    ∀ (l : List ℕ) (a : ℕ), List.Chain (· ≤ ·) a l →
      (a :: l).getLast (List.cons_ne_nil a l) ≤ len →
      PairChain len a ((a :: l).zip l) := by
  intro l
  induction l with
  | nil =>
    intro a _ hlast
    exact hlast
  | cons b l ih =>
    intro a hchain hlast
    rw [List.chain_cons] at hchain
    rw [List.getLast_cons (List.cons_ne_nil b l)] at hlast
    exact ⟨rfl, hchain.1, ih b hchain.2 hlast⟩

/-- C3 (amended): for any non-decreasing nonempty `indptr` whose last entry
is at most `len(src)`, rectangular `src`, and `mode ∈ {sum, mean}` — where
in mean mode every group is nonempty or starts at `len(src)` — the reducer
returns a sequence of length `len(indptr) - 1` with the trailing feature
shape of `src`; every nonempty group `k` holds the elementwise sum of
`src[indptr[k] : indptr[k+1]]` (divided by the group length in mean mode),
and every group starting at `len(src)` is zero-filled, not an error. -/
theorem segment_csr_spec (d : ℕ) (src : List Row) (indptr : List ℕ)
    (mode : String)
    (hmode : mode = "sum" ∨ mode = "mean")
    (hne : indptr ≠ [])
    (hsorted : List.Pairwise (· ≤ ·) indptr)
    (hlast : indptr.getLast hne ≤ src.length)
    (hrect : ∀ r ∈ src, r.length = d)
    (hmean : mode = "mean" → ∀ k a b, indptr[k]? = some a →
      indptr[k + 1]? = some b → a < b ∨ a = src.length) :
    ∃ out src2, segment_csr d src indptr mode = Except.ok (out, src2) ∧
      out.length = indptr.length - 1 ∧
      (∀ r ∈ out, r.length = d) ∧
      (∀ k a b, indptr[k]? = some a → indptr[k + 1]? = some b →
        (a < b → out[k]? = some (groupAgg mode src a b)) ∧
        (a = src.length → out[k]? = some (vzero d))) := by
  obtain ⟨a0, l, rfl⟩ : ∃ a0 l, indptr = a0 :: l := by
    cases indptr with
    | nil => exact absurd rfl hne
    | cons a0 l => exact ⟨a0, l, rfl⟩
  have hgate1 : ¬(mode ≠ "mean" ∧ mode ≠ "sum") := by
    rcases hmode with h | h <;> simp [h]
  have hziplen : ((a0 :: l).zip l).length = l.length := by
    rw [List.length_zip]
    simp
  have hzip_mem : ∀ p ∈ (a0 :: l).zip l,
      ∃ m, (a0 :: l)[m]? = some p.1 ∧ (a0 :: l)[m + 1]? = some p.2 := by
    intro p hp
    obtain ⟨m, hm, hgm⟩ := List.getElem_of_mem hp
    have hq : ((a0 :: l).zip l)[m]? = some p := by
      rw [List.getElem?_eq_getElem hm, hgm]
    rw [List.getElem?_zip_eq_some] at hq
    refine ⟨m, hq.1, ?_⟩
    rw [List.getElem?_cons_succ]
    exact hq.2
  have hchain : PairChain src.length a0 ((a0 :: l).zip l) :=
    pairChain_of_sorted l a0 (List.chain_iff_pairwise.mpr hsorted) hlast
  have hmean2 : mode = "mean" → ∀ p ∈ (a0 :: l).zip l,
      p.1 < p.2 ∨ p.1 = src.length := by
    intro hm p hp
    obtain ⟨m, h1, h2⟩ := hzip_mem p hp
    exact hmean hm m p.1 p.2 h1 h2
  have hout0 : 0 + ((a0 :: l).zip l).length ≤
      (List.replicate ((a0 :: l).length - 1) (vzero d)).length := by
    rw [hziplen, List.length_replicate]
    simp
  have hrect_out0 : ∀ r ∈ List.replicate ((a0 :: l).length - 1) (vzero d),
      r.length = d := by
    intro r hr
    rw [List.eq_of_mem_replicate hr]
    exact List.length_replicate d _
  obtain ⟨out2, src2, heq, hlen2, hrect2, _, hgroups2⟩ :=
    segLoop_spec mode d src ((a0 :: l).zip l) a0 0
      (List.replicate ((a0 :: l).length - 1) (vzero d)) src hchain rfl
      (fun k _ => rfl) hmean2 hout0 hrect hrect_out0
  refine ⟨out2, src2, ?_, ?_, hrect2, ?_⟩
  · show segment_csr d src (a0 :: l) mode = Except.ok (out2, src2)
    unfold segment_csr
    rw [if_neg hgate1, if_neg (by simp : ¬((a0 :: l).length = 0))]
    exact heq
  · rw [hlen2, List.length_replicate]
  · intro k a b ha hb
    have hzipk : ((a0 :: l).zip l)[k]? = some (a, b) := by
      rw [List.getElem?_zip_eq_some]
      refine ⟨ha, ?_⟩
      rw [List.getElem?_cons_succ] at hb
      exact hb
    have hk : k < l.length := by
      by_contra hc
      rw [List.getElem?_eq_none (by rw [hziplen]; omega)] at hzipk
      exact Option.noConfusion hzipk
    have hgr := hgroups2 k a b hzipk
    constructor
    · intro hab
      have h := hgr.1 hab
      rwa [Nat.zero_add] at h
    · intro ha'
      have h := hgr.2 ha'
      rw [Nat.zero_add] at h
      rw [h, List.getElem?_replicate, if_pos (by simp; omega)]

/-- C3 counterexample evaluation: a zero-length mean-mode group starting
before the end of `src` writes a non-finite value into `src[0]` through the
aliasing accumulator, corrupting the following nonempty group: the claim
would require output entry 1 to be the mean `[2]` of `src[0:2] = [[0],[4]]`,
but the code produces a non-finite value. -/
theorem segment_csr_mean_mid_empty_counterexample :
    segment_csr 1 [[FVal.fin 0], [FVal.fin 4]] [0, 0, 2] "mean" =
        Except.ok ([[FVal.nonfinite], [FVal.nonfinite]],
          [[FVal.nonfinite], [FVal.fin 4]]) ∧
      groupAgg "mean" [[FVal.fin 0], [FVal.fin 4]] 0 2 = [FVal.fin 2] ∧
      [FVal.nonfinite] ≠ [FVal.fin 2] := by
  refine ⟨?_, ?_, by decide⟩
  · norm_num [segment_csr, segLoop, addRows, applyMode, vadd, vdivz, vzero, fadd, fdiv,
      List.range']
    decide
  · norm_num [groupAgg, sliceRows, elemSum, rowAt, vadd, vdivz, fadd, fdiv,
      List.range']

/-- Witness for C3's amended theorem: the spec's own scenario — four rows
`[1,1]`, `indptr = [0,2,4,4]`, sum mode — satisfies every hypothesis, the
two nonempty groups aggregate to `[2,2]` and the trailing empty group is
zero-filled. -/
theorem segment_csr_spec_witness :
    ∃ out src2,
      segment_csr 2 [[FVal.fin 1, FVal.fin 1], [FVal.fin 1, FVal.fin 1],
          [FVal.fin 1, FVal.fin 1], [FVal.fin 1, FVal.fin 1]]
          [0, 2, 4, 4] "sum" =
        Except.ok (out, src2) ∧
      out.length = 3 ∧
      out[0]? = some (groupAgg "sum"
        [[FVal.fin 1, FVal.fin 1], [FVal.fin 1, FVal.fin 1],
          [FVal.fin 1, FVal.fin 1], [FVal.fin 1, FVal.fin 1]] 0 2) ∧
      out[2]? = some (vzero 2) := by
  obtain ⟨out, src2, h1, h2, _, h4⟩ :=
    segment_csr_spec 2
      [[FVal.fin 1, FVal.fin 1], [FVal.fin 1, FVal.fin 1],
        [FVal.fin 1, FVal.fin 1], [FVal.fin 1, FVal.fin 1]]
      [0, 2, 4, 4] "sum" (Or.inl rfl) (by decide) (by decide) (by decide)
      (by decide) (fun hm => absurd hm (by decide))
  refine ⟨out, src2, h1, h2, ?_, ?_⟩
  · exact (h4 0 0 2 rfl rfl).1 (by decide)
  · exact (h4 2 4 4 rfl rfl).2 (by decide)

/-! ### Calibration scale factor (train_uqno_darcy.py, calibration run)

The run computes
`val_ratios_pointwise_quantile = torch.topk(vr_view, domain_idx+1, dim=1).values[:, -1]`
and
`uncertainty_scaling_factor = torch.abs(torch.topk(val_ratios_pointwise_quantile, function_idx+1, dim=0).values[-1])`.
`torch.topk(x, k)` returns the `k` largest entries in descending order and
raises when `k` exceeds the dimension's size; `values[-1]` of an empty
selection also raises.  Ratios are modelled as exact rationals. -/

/-- All entries sorted in descending order. -/
def sortDesc (l : List ℚ) : List ℚ := l.insertionSort (· ≥ ·)

/-- `torch.topk(l, k).values`: the `k` largest values in descending order;
fails (RuntimeError) when `k > len(l)`. -/
def topk_values (l : List ℚ) (k : ℕ) : Option (List ℚ) :=
  if k ≤ l.length then some ((sortDesc l).take k) else none

/-- Indexing `[-1]`: the last element, failing on an empty list. -/
def lastValue (l : List ℚ) : Option ℚ := l.getLast?

/-- Apply `f` to every element, failing if any application fails (a
per-row tensor operation). -/
def mapMOpt {α β : Type} (f : α → Option β) : List α → Option (List β)
  | [] => some []
  | x :: xs => (f x).bind fun y => (mapMOpt f xs).map fun ys => y :: ys

/-- `val_ratios_pointwise_quantile`: for each calibration function (row of
flattened pointwise ratios), `topk(row, domain_idx+1).values[-1]`. -/
def val_ratios_pointwise_quantile (ratios : List (List ℚ)) (domain_idx : ℕ) :
    Option (List ℚ) :=
  mapMOpt (fun row => (topk_values row (domain_idx + 1)).bind lastValue) ratios

/-- `uncertainty_scaling_factor`: the absolute value of
`topk(stats, function_idx+1).values[-1]` over the per-function statistics. -/
def uncertainty_scaling_factor (ratios : List (List ℚ))
    (domain_idx function_idx : ℕ) : Option ℚ :=
  (val_ratios_pointwise_quantile ratios domain_idx).bind fun stats =>
    ((topk_values stats (function_idx + 1)).bind lastValue).map fun c => |c|

/-- The claim's `k`-th largest element, 1-indexed, ranked descending
(undefined unless `1 ≤ k ≤ len(l)`). -/
def kthLargest (l : List ℚ) (k : ℕ) : Option ℚ :=
  if 1 ≤ k ∧ k ≤ l.length then (sortDesc l)[k - 1]? else none

/-- The scale factor as claim C2 states it: the `function_idx`-th largest
(1-indexed) over functions of each function's `domain_idx`-th largest
(1-indexed) pointwise ratio. -/
def claim_scale_factor (ratios : List (List ℚ)) (domain_idx function_idx : ℕ) :
    Option ℚ :=
  (mapMOpt (fun row => kthLargest row domain_idx) ratios).bind fun stats =>
    kthLargest stats function_idx

theorem sortDesc_length (l : List ℚ) : (sortDesc l).length = l.length := by
  unfold sortDesc
  exact (List.perm_insertionSort _ l).length_eq

/-- `topk(l, k).values[-1]` is exactly the `k`-th largest element
(1-indexed) when `1 ≤ k ≤ len(l)`. -/
theorem topk_last_eq_kthLargest (l : List ℚ) (k : ℕ) (hk1 : 1 ≤ k)
    (hk2 : k ≤ l.length) :
    (topk_values l k).bind lastValue = kthLargest l k := by
  unfold topk_values lastValue kthLargest
  rw [if_pos hk2, if_pos ⟨hk1, hk2⟩]
  show ((sortDesc l).take k).getLast? = (sortDesc l)[k - 1]?
  rw [List.getLast?_eq_getElem?, List.length_take, List.getElem?_take]
  have hmin : min k (sortDesc l).length = k := by
    rw [sortDesc_length]
    omega
  rw [hmin, if_pos (by omega : k - 1 < k)]

theorem mapMOpt_congr {α β : Type} (l : List α) (f g : α → Option β)
    (h : ∀ x ∈ l, f x = g x) : mapMOpt f l = mapMOpt g l := by
  induction l with
  | nil => rfl
  | cons x xs ih =>
    unfold mapMOpt
    rw [h x (List.mem_cons_self x xs), ih (fun y hy => h y (List.mem_cons_of_mem x hy))]

theorem mapMOpt_total {α β : Type} (l : List α) (f : α → Option β)
    (h : ∀ x ∈ l, (f x).isSome) :
    ∃ out, mapMOpt f l = some out ∧ out.length = l.length := by
  induction l with
  | nil => exact ⟨[], rfl, rfl⟩
  | cons x xs ih =>
    obtain ⟨out, hout, hlen⟩ := ih (fun y hy => h y (List.mem_cons_of_mem x hy))
    obtain ⟨y, hy⟩ := Option.isSome_iff_exists.mp (h x (List.mem_cons_self x xs))
    refine ⟨y :: out, ?_, by simp [hlen]⟩
    unfold mapMOpt
    rw [hy, hout]
    rfl

/-- C2 (amended): the applied scale factor is the absolute value of the
`(function_idx+1)`-th largest (1-indexed, descending) over calibration
functions of each function's `(domain_idx+1)`-th largest (1-indexed,
descending) pointwise ratio — i.e. the code indexes both ranked lists
0-based, one rank deeper than the claim's 1-indexed reading, and applies
`abs` at the function level. -/
theorem uncertainty_scaling_factor_eq (ratios : List (List ℚ)) (di fi : ℕ)
    (hrows : ∀ row ∈ ratios, di + 1 ≤ row.length)
    (hfi : fi + 1 ≤ ratios.length) :
    uncertainty_scaling_factor ratios di fi =
      (claim_scale_factor ratios (di + 1) (fi + 1)).map fun c => |c| := by
  unfold uncertainty_scaling_factor val_ratios_pointwise_quantile claim_scale_factor
  rw [mapMOpt_congr ratios _ (fun row => kthLargest row (di + 1))
    (fun row hrow => topk_last_eq_kthLargest row (di + 1) (by omega)
      (hrows row hrow))]
  obtain ⟨stats, hstats, hstatlen⟩ := mapMOpt_total ratios
    (fun row => kthLargest row (di + 1))
    (by
      intro row hrow
      unfold kthLargest
      dsimp only
      rw [if_pos ⟨by omega, hrows row hrow⟩]
      have hlt : di + 1 - 1 < (sortDesc row).length := by
        rw [sortDesc_length]
        have := hrows row hrow
        omega
      rw [List.getElem?_eq_getElem hlt]
      rfl)
  rw [hstats]
  show ((topk_values stats (fi + 1)).bind lastValue).map (fun c => |c|) =
    (kthLargest stats (fi + 1)).map fun c => |c|
  rw [topk_last_eq_kthLargest stats (fi + 1) (by omega) (by omega)]

/-! ### get_coeff_quantile_idx (train_uqno_darcy.py lines 454-479)

The Python function computes, with numpy floats (modelled as exact reals):
`lb = np.sqrt(-np.log(delta)/2/n_gridpts)`,
`t = (alpha-lb)/3+lb`,
`percentile = alpha-t`, `domain_idx = int(np.ceil(percentile*n_gridpts))`,
`function_percentile = np.ceil((n_samples+1)*(delta-np.exp(-2*n_gridpts*t*t)))/n_samples`,
`function_idx = int(np.ceil(function_percentile*n_samples))`.
It contains no validation and no raise statement. -/

noncomputable def gcq_lb (delta : ℝ) (n_gridpts : ℕ) : ℝ :=
  Real.sqrt (-Real.log delta / 2 / n_gridpts)

noncomputable def gcq_t (alpha delta : ℝ) (n_gridpts : ℕ) : ℝ :=
  (alpha - gcq_lb delta n_gridpts) / 3 + gcq_lb delta n_gridpts

noncomputable def gcq_domain_idx (alpha delta : ℝ) (n_gridpts : ℕ) : ℤ :=
  ⌈(alpha - gcq_t alpha delta n_gridpts) * n_gridpts⌉

noncomputable def gcq_function_percentile (alpha delta : ℝ)
    (n_samples n_gridpts : ℕ) : ℝ :=
  (⌈((n_samples : ℝ) + 1) * (delta - Real.exp (-2 * n_gridpts *
    gcq_t alpha delta n_gridpts * gcq_t alpha delta n_gridpts))⌉ : ℤ) / n_samples

noncomputable def gcq_function_idx (alpha delta : ℝ) (n_samples n_gridpts : ℕ) : ℤ :=
  ⌈gcq_function_percentile alpha delta n_samples n_gridpts * n_samples⌉

/-- The embedded `get_coeff_quantile_idx`: returns `(domain_idx, function_idx)`. -/
noncomputable def get_coeff_quantile_idx (alpha delta : ℝ)
    (n_samples n_gridpts : ℕ) : ℤ × ℤ :=
  (gcq_domain_idx alpha delta n_gridpts,
   gcq_function_idx alpha delta n_samples n_gridpts)

/-! The same quantities written exactly as the specification states them. -/

noncomputable def spec_lb (delta : ℝ) (n_gridpts : ℕ) : ℝ :=
  Real.sqrt (-Real.log delta / (2 * n_gridpts))

noncomputable def spec_t (alpha delta : ℝ) (n_gridpts : ℕ) : ℝ :=
  spec_lb delta n_gridpts + (alpha - spec_lb delta n_gridpts) / 3

noncomputable def spec_domain_idx (alpha delta : ℝ) (n_gridpts : ℕ) : ℤ :=
  ⌈(alpha - spec_t alpha delta n_gridpts) * n_gridpts⌉

noncomputable def spec_function_percentile (alpha delta : ℝ)
    (n_samples n_gridpts : ℕ) : ℝ :=
  (⌈((n_samples : ℝ) + 1) * (delta - Real.exp (-2 * n_gridpts *
    (spec_t alpha delta n_gridpts) ^ 2))⌉ : ℤ) / n_samples

noncomputable def spec_function_idx (alpha delta : ℝ)
    (n_samples n_gridpts : ℕ) : ℤ :=
  ⌈spec_function_percentile alpha delta n_samples n_gridpts * n_samples⌉

theorem gcq_lb_eq_spec_lb (delta : ℝ) (n_gridpts : ℕ) :
    gcq_lb delta n_gridpts = spec_lb delta n_gridpts := by
  unfold gcq_lb spec_lb
  rw [div_div]

theorem gcq_t_eq_spec_t (alpha delta : ℝ) (n_gridpts : ℕ) :
    gcq_t alpha delta n_gridpts = spec_t alpha delta n_gridpts := by
  unfold gcq_t spec_t
  rw [gcq_lb_eq_spec_lb]
  ring

/-- C1: `get_coeff_quantile_idx` returns exactly the pair of indices given
by the specification's closed-form formulas (`lb = sqrt(-ln δ/(2 n))`,
`t = lb + (α-lb)/3`, `domain_idx = ceil((α-t)·n_gridpoints)`,
`function_percentile = ceil((n_samples+1)(δ - exp(-2 n t²)))/n_samples`,
`function_idx = ceil(function_percentile · n_samples)`). -/
theorem get_coeff_quantile_idx_matches_spec (alpha delta : ℝ)
    (n_samples n_gridpts : ℕ) (hng : 0 < n_gridpts) (hd0 : 0 < delta)
    (hd1 : delta < 1) :
    get_coeff_quantile_idx alpha delta n_samples n_gridpts =
      (spec_domain_idx alpha delta n_gridpts,
       spec_function_idx alpha delta n_samples n_gridpts) := by
  unfold get_coeff_quantile_idx gcq_domain_idx spec_domain_idx
    gcq_function_idx spec_function_idx gcq_function_percentile
    spec_function_percentile
  rw [gcq_t_eq_spec_t]
  rw [sq (spec_t alpha delta n_gridpts)]
  ring_nf

/-- Witness for C1 at `α = 0`, `δ = 1/2`, `n_samples = 1`,
`n_gridpoints = 1`. -/
theorem get_coeff_quantile_idx_matches_spec_witness :
    0 < 1 ∧ 0 < (1 / 2 : ℝ) ∧ (1 / 2 : ℝ) < 1 ∧
      get_coeff_quantile_idx 0 (1 / 2) 1 1 =
        (spec_domain_idx 0 (1 / 2) 1, spec_function_idx 0 (1 / 2) 1 1) :=
  ⟨by norm_num, by norm_num, by norm_num,
    get_coeff_quantile_idx_matches_spec 0 (1 / 2) 1 1 (by norm_num)
      (by norm_num) (by norm_num)⟩

/-- C7 (amended): `get_coeff_quantile_idx` performs no validation of
`lb ≤ t ≤ α`.  When `α ≤ lb` it does not raise anything: it computes and
returns the index pair anyway, with a nonpositive (degenerate) domain
index, since `α - t = (2/3)(α - lb) ≤ 0`. -/
theorem gcq_no_validation (alpha delta : ℝ) (n_samples n_gridpts : ℕ)
    (hd0 : 0 < delta) (hd1 : delta < 1)
    (halb : alpha ≤ gcq_lb delta n_gridpts) :
    (get_coeff_quantile_idx alpha delta n_samples n_gridpts).1 ≤ 0 := by
  unfold get_coeff_quantile_idx gcq_domain_idx
  dsimp only
  have ht : alpha - gcq_t alpha delta n_gridpts =
      2 / 3 * (alpha - gcq_lb delta n_gridpts) := by
    unfold gcq_t
    ring
  have h0 : (alpha - gcq_t alpha delta n_gridpts) * n_gridpts ≤ 0 := by
    apply mul_nonpos_of_nonpos_of_nonneg
    · rw [ht]
      nlinarith
    · positivity
  exact Int.ceil_le.mpr (by exact_mod_cast h0)

/-- C7 counterexample: at `α = 0, δ = 1/2, n_samples = 2, n_gridpoints = 1`
we have `α < lb`, yet the function raises nothing and computes a
(nonpositive) domain index — there is no `InvalidConfiguration` check. -/
theorem gcq_no_validation_counterexample :
    (0 : ℝ) < gcq_lb (1 / 2) 1 ∧
      (get_coeff_quantile_idx 0 (1 / 2) 2 1).1 ≤ 0 := by
  have hlog : -Real.log (1 / 2) = Real.log 2 := by
    rw [one_div, Real.log_inv, neg_neg]
  constructor
  · unfold gcq_lb
    apply Real.sqrt_pos.mpr
    rw [hlog]
    have := Real.log_pos (by norm_num : (1 : ℝ) < 2)
    norm_num
    linarith
  · exact gcq_no_validation 0 (1 / 2) 2 1 (by norm_num) (by norm_num)
      (by unfold gcq_lb; positivity)

/-- C8: for fixed `δ, n_samples, n_gridpoints`, both components of
`get_coeff_quantile_idx` are monotonically non-decreasing in `α` on
`α ≥ lb`. -/
theorem gcq_monotone (alpha1 alpha2 delta : ℝ) (n_samples n_gridpts : ℕ)
    (hd0 : 0 < delta) (hd1 : delta < 1)
    (hlb : gcq_lb delta n_gridpts ≤ alpha1) (h12 : alpha1 ≤ alpha2) :
    gcq_domain_idx alpha1 delta n_gridpts ≤
        gcq_domain_idx alpha2 delta n_gridpts ∧
      gcq_function_idx alpha1 delta n_samples n_gridpts ≤
        gcq_function_idx alpha2 delta n_samples n_gridpts := by
  have hlb0 : 0 ≤ gcq_lb delta n_gridpts := Real.sqrt_nonneg _
  have ht12 : gcq_t alpha1 delta n_gridpts ≤ gcq_t alpha2 delta n_gridpts := by
    unfold gcq_t
    linarith
  have ht0 : 0 ≤ gcq_t alpha1 delta n_gridpts := by
    unfold gcq_t
    linarith
  constructor
  · unfold gcq_domain_idx
    apply Int.ceil_mono
    apply mul_le_mul_of_nonneg_right _ (by positivity : (0 : ℝ) ≤ n_gridpts)
    have e1 : alpha1 - gcq_t alpha1 delta n_gridpts =
        2 / 3 * (alpha1 - gcq_lb delta n_gridpts) := by
      unfold gcq_t; ring
    have e2 : alpha2 - gcq_t alpha2 delta n_gridpts =
        2 / 3 * (alpha2 - gcq_lb delta n_gridpts) := by
      unfold gcq_t; ring
    rw [e1, e2]
    linarith
  · unfold gcq_function_idx
    apply Int.ceil_mono
    unfold gcq_function_percentile
    have hng0 : (0 : ℝ) ≤ (n_gridpts : ℝ) := by positivity
    have hE : Real.exp (-2 * n_gridpts * gcq_t alpha2 delta n_gridpts *
          gcq_t alpha2 delta n_gridpts) ≤
        Real.exp (-2 * n_gridpts * gcq_t alpha1 delta n_gridpts *
          gcq_t alpha1 delta n_gridpts) := by
      apply Real.exp_le_exp.mpr
      have hsq : gcq_t alpha1 delta n_gridpts * gcq_t alpha1 delta n_gridpts ≤
          gcq_t alpha2 delta n_gridpts * gcq_t alpha2 delta n_gridpts :=
        mul_self_le_mul_self ht0 ht12
      nlinarith [mul_le_mul_of_nonneg_left hsq hng0]
    have hceil : (⌈((n_samples : ℝ) + 1) * (delta - Real.exp (-2 * n_gridpts *
          gcq_t alpha1 delta n_gridpts * gcq_t alpha1 delta n_gridpts))⌉ : ℤ) ≤
        ⌈((n_samples : ℝ) + 1) * (delta - Real.exp (-2 * n_gridpts *
          gcq_t alpha2 delta n_gridpts * gcq_t alpha2 delta n_gridpts))⌉ := by
      apply Int.ceil_mono
      have hns0 : (0 : ℝ) ≤ (n_samples : ℝ) + 1 := by positivity
      nlinarith
    rcases Nat.eq_zero_or_pos n_samples with h0 | hpos
    · subst h0
      simp
    · apply mul_le_mul_of_nonneg_right _ (by positivity : (0 : ℝ) ≤ n_samples)
      have hnsr : (0 : ℝ) < (n_samples : ℝ) := by exact_mod_cast hpos
      exact (div_le_div_iff_of_pos_right hnsr).mpr (by exact_mod_cast hceil)

/-- Witness for C8 at `α₁ = 1 ≤ α₂ = 2`, `δ = 1/2`, `n_samples = 3`,
`n_gridpoints = 1` (where `lb = sqrt(ln 2 / 2) ≤ 1`). -/
theorem gcq_monotone_witness :
    0 < (1 / 2 : ℝ) ∧ (1 / 2 : ℝ) < 1 ∧ gcq_lb (1 / 2) 1 ≤ 1 ∧ (1 : ℝ) ≤ 2 ∧
      (gcq_domain_idx 1 (1 / 2) 1 ≤ gcq_domain_idx 2 (1 / 2) 1 ∧
        gcq_function_idx 1 (1 / 2) 3 1 ≤ gcq_function_idx 2 (1 / 2) 3 1) := by
  have hlb1 : gcq_lb (1 / 2) 1 ≤ 1 := by
    unfold gcq_lb
    have hlog : -Real.log (1 / 2) = Real.log 2 := by
      rw [one_div, Real.log_inv, neg_neg]
    have h2 : Real.log 2 < 0.6931471808 := Real.log_two_lt_d9
    have harg : -Real.log (1 / 2) / 2 / (1 : ℕ) ≤ 1 := by
      rw [hlog]
      norm_num
      linarith
    calc Real.sqrt (-Real.log (1 / 2) / 2 / (1 : ℕ)) ≤ Real.sqrt 1 :=
          Real.sqrt_le_sqrt harg
      _ = 1 := Real.sqrt_one
  exact ⟨by norm_num, by norm_num, hlb1, by norm_num,
    gcq_monotone 1 2 (1 / 2) 3 1 (by norm_num) (by norm_num) hlb1 (by norm_num)⟩

/-- Witness for C7's amended theorem at `α = 0 ≤ lb`, `δ = 1/2`,
`n_samples = 2`, `n_gridpoints = 1`. -/
theorem gcq_no_validation_witness :
    0 < (1 / 2 : ℝ) ∧ (1 / 2 : ℝ) < 1 ∧ (0 : ℝ) ≤ gcq_lb (1 / 2) 1 ∧
      (get_coeff_quantile_idx 0 (1 / 2) 2 1).1 ≤ 0 :=
  ⟨by norm_num, by norm_num, Real.sqrt_nonneg _,
    gcq_no_validation 0 (1 / 2) 2 1 (by norm_num) (by norm_num)
      (Real.sqrt_nonneg _)⟩

/-- Concrete evaluation of the calibration indices at
`α = 1, δ = 1/2, n_samples = 2, n_gridpoints = 2`, pinned by interval
bounds on `log 2`, `log 3` and `exp`: both indices equal `1`. -/
theorem gcq_at_one_half : get_coeff_quantile_idx 1 (1/2) 2 2 = (1, 1) := by
  have hlog_half : -Real.log (1/2) = Real.log 2 := by
    rw [one_div, Real.log_inv, neg_neg]
  have hL1 : (0.6931471803 : ℝ) < Real.log 2 := Real.log_two_gt_d9
  have hL2 : Real.log 2 < 0.6931471808 := Real.log_two_lt_d9
  have hlb_eq : gcq_lb (1/2) 2 = Real.sqrt (Real.log 2 / 4) := by
    unfold gcq_lb
    rw [hlog_half]
    congr 1
    push_cast
    ring
  have hlb_lo : (1/4 : ℝ) ≤ gcq_lb (1/2) 2 := by
    rw [hlb_eq]
    have h14 : ((1:ℝ)/4) = Real.sqrt (1/16) := by
      rw [show (1:ℝ)/16 = (1/4)^2 by norm_num, Real.sqrt_sq (by norm_num)]
    rw [h14]
    apply Real.sqrt_le_sqrt
    linarith
  have hlb_hi : gcq_lb (1/2) 2 ≤ 0.42 := by
    rw [hlb_eq]
    have h42 : (0.42:ℝ) = Real.sqrt (0.1764) := by
      rw [show (0.1764:ℝ) = 0.42^2 by norm_num, Real.sqrt_sq (by norm_num)]
    rw [h42]
    apply Real.sqrt_le_sqrt
    linarith
  have ht_eq : gcq_t 1 (1/2) 2 = (1 - gcq_lb (1/2) 2)/3 + gcq_lb (1/2) 2 := rfl
  have ht_lo : (1/2 : ℝ) ≤ gcq_t 1 (1/2) 2 := by rw [ht_eq]; linarith
  have ht_hi : gcq_t 1 (1/2) 2 ≤ 0.614 := by rw [ht_eq]; linarith
  have ht2_lo : (1/4 : ℝ) ≤ gcq_t 1 (1/2) 2 * gcq_t 1 (1/2) 2 := by nlinarith
  have ht2_hi : gcq_t 1 (1/2) 2 * gcq_t 1 (1/2) 2 ≤ 0.377 := by nlinarith
  have hexp_arg : (-2 : ℝ) * ((2:ℕ) : ℝ) * gcq_t 1 (1/2) 2 * gcq_t 1 (1/2) 2 =
      -(4 * (gcq_t 1 (1/2) 2 * gcq_t 1 (1/2) 2)) := by
    push_cast
    ring
  have hE_hi : Real.exp (-(4 * (gcq_t 1 (1/2) 2 * gcq_t 1 (1/2) 2))) < 1/2 := by
    have hh : Real.log (1/2) = -Real.log 2 := by rw [one_div, Real.log_inv]
    have hlt := Real.exp_lt_exp.mpr
      (show -(4 * (gcq_t 1 (1/2) 2 * gcq_t 1 (1/2) 2)) < Real.log (1/2) by
        rw [hh]; linarith)
    rwa [Real.exp_log (by norm_num : (0:ℝ) < 1/2)] at hlt
  have hlog3 : (1:ℝ) < Real.log 3 := by
    rw [Real.lt_log_iff_exp_lt (by norm_num : (0:ℝ) < 3)]
    calc Real.exp 1 < 2.7182818286 := Real.exp_one_lt_d9
      _ < 3 := by norm_num
  have hlog6 : Real.log 6 = Real.log 2 + Real.log 3 := by
    rw [show (6:ℝ) = 2 * 3 by norm_num, Real.log_mul (by norm_num) (by norm_num)]
  have hE_lo : (1/6 : ℝ) ≤ Real.exp (-(4 * (gcq_t 1 (1/2) 2 * gcq_t 1 (1/2) 2))) := by
    have h16 : Real.log (1/6) = -Real.log 6 := by rw [one_div, Real.log_inv]
    have hle := Real.exp_le_exp.mpr
      (show Real.log (1/6) ≤ -(4 * (gcq_t 1 (1/2) 2 * gcq_t 1 (1/2) 2)) by
        rw [h16, hlog6]; linarith)
    rwa [Real.exp_log (by norm_num : (0:ℝ) < 1/6)] at hle
  have hdom : gcq_domain_idx 1 (1/2) 2 = 1 := by
    unfold gcq_domain_idx
    rw [Int.ceil_eq_iff]
    constructor
    · push_cast
      rw [ht_eq]
      linarith
    · push_cast
      rw [ht_eq]
      linarith
  have hinner : (⌈(((2:ℕ) : ℝ) + 1) * ((1:ℝ)/2 - Real.exp (-2 * ((2:ℕ):ℝ) *
      gcq_t 1 (1/2) 2 * gcq_t 1 (1/2) 2))⌉ : ℤ) = 1 := by
    rw [hexp_arg, Int.ceil_eq_iff]
    constructor
    · push_cast
      nlinarith
    · push_cast
      nlinarith
  have hfn : gcq_function_idx 1 (1/2) 2 2 = 1 := by
    unfold gcq_function_idx gcq_function_percentile
    rw [hinner]
    norm_num
  unfold get_coeff_quantile_idx
  rw [hdom, hfn]

/-- C2 counterexample: with `(domain_idx, function_idx) = (1, 1)` as
returned by `get_coeff_quantile_idx 1 (1/2) 2 2`, and the stored ratio set
`[[3, 1], [2, 0]]`, the code's scale factor is `|topk(·, 2).values[-1]|`
twice, giving `0`, while the claim's nested 1-indexed quantile (the 1st
largest of the per-function 1st largest) gives `3`. -/
theorem scale_factor_counterexample :
    get_coeff_quantile_idx 1 (1/2) 2 2 = (1, 1) ∧
      uncertainty_scaling_factor [[3, 1], [2, 0]] 1 1 = some 0 ∧
      claim_scale_factor [[3, 1], [2, 0]] 1 1 = some 3 ∧
      (0 : ℚ) ≠ 3 :=
  ⟨gcq_at_one_half, by decide, by decide, by decide⟩

/-- Witness for C2's amended theorem on the ratio set `[[3, 1], [2, 0]]`
with `domain_idx = function_idx = 1`. -/
theorem uncertainty_scaling_factor_eq_witness :
    (∀ row ∈ [[(3 : ℚ), 1], [2, 0]], 1 + 1 ≤ row.length) ∧
      1 + 1 ≤ ([[(3 : ℚ), 1], [2, 0]] : List (List ℚ)).length ∧
      uncertainty_scaling_factor [[3, 1], [2, 0]] 1 1 =
        (claim_scale_factor [[3, 1], [2, 0]] 2 2).map fun c => |c| :=
  ⟨by decide, by decide,
    uncertainty_scaling_factor_eq [[3, 1], [2, 0]] 1 1 (by decide) (by decide)⟩

/-! ### UQNODataProcessor.postprocess (train_uqno_darcy.py lines 305-332)

The method does, in order: `self.base_data_processor.train = False`;
unpack `(g_hat, pred_uncertainty) = out`;
`pred_uncertainty = self.residual_normalizer.inverse_transform(pred_uncertainty)`;
`g_hat, sample = self.base_data_processor.postprocess(g_hat, sample)`;
`g_true = sample['y']`; `sample['y'] = g_true - g_hat`; `sample.pop('x')`;
`if self.scale_factor is not None: pred_uncertainty *= self.scale_factor`;
return `(pred_uncertainty, sample)`.  The base processor's `postprocess`
and the residual normalizer's `inverse_transform` are external
collaborators, taken as function parameters; the base postprocess receives
the train-mode flag that was just forced to `False`. -/

/-- A sample dict mapping field names to (tensor) values. -/
abbrev Sample := List (String × ℚ)

/-- Dict lookup, first matching key. -/
def slookup : Sample → String → Option ℚ
  | [], _ => none
  | (k', v) :: rest, k => if k' = k then some v else slookup rest k

/-- Python dict assignment `sample[k] = v`: replace the value of an
existing key, append the key otherwise. -/
def dictSet : Sample → String → ℚ → Sample
  | [], k, v => [(k, v)]
  | (k', v') :: rest, k, v =>
    if k' = k then (k, v) :: rest else (k', v') :: dictSet rest k v

/-- Python `sample.pop(k)`: remove the key (presence is checked by the
caller, which raises KeyError otherwise). -/
def dictPop : Sample → String → Sample
  | [], _ => []
  | (k', v) :: rest, k => if k' = k then dictPop rest k else (k', v) :: dictPop rest k

/-- The mutable attributes of a `UQNODataProcessor` that `postprocess`
touches: the base processor's `train` flag and the calibration scale
factor. -/
structure UQNOState where
  baseTrainMode : Bool
  scale_factor : Option ℚ
deriving DecidableEq, Repr

/-- `UQNODataProcessor.postprocess(out, sample)`.  Returns the updated
processor state together with the returned
`(pred_uncertainty, sample)` pair; `sample['y']` and `sample.pop('x')`
raise `KeyError` when the key is missing. -/
def uqno_postprocess (basePost : Bool → ℚ → Sample → ℚ × Sample)
    (residual_inverse_transform : ℚ → ℚ) (st : UQNOState)
    (out : ℚ × ℚ) (sample : Sample) :
    Except String (UQNOState × (ℚ × Sample)) :=
  let st1 : UQNOState := { st with baseTrainMode := false }
  let g_hat := out.1
  let pu1 := residual_inverse_transform out.2
  let res := basePost st1.baseTrainMode g_hat sample
  match slookup res.2 "y" with
  | none => Except.error "KeyError"
  | some g_true =>
    let sample2 := dictSet res.2 "y" (g_true - res.1)
    match slookup sample2 "x" with
    | none => Except.error "KeyError"
    | some _ =>
      let sample3 := dictPop sample2 "x"
      let pu2 := match st1.scale_factor with
        | some c => pu1 * c
        | none => pu1
      Except.ok (st1, (pu2, sample3))

theorem slookup_dictSet_self (s : Sample) (k : String) (v : ℚ) :
    slookup (dictSet s k v) k = some v := by
  induction s with
  | nil => simp [dictSet, slookup]
  | cons p rest ih =>
    obtain ⟨k', v'⟩ := p
    by_cases h : k' = k
    · simp [dictSet, h, slookup]
    · simp only [dictSet, if_neg h, slookup]
      exact ih

theorem slookup_dictSet_ne (s : Sample) (k q : String) (v : ℚ) (h : k ≠ q) :
    slookup (dictSet s k v) q = slookup s q := by
  induction s with
  | nil => simp [dictSet, slookup, h]
  | cons p rest ih =>
    obtain ⟨k', v'⟩ := p
    by_cases hk : k' = k
    · subst hk
      simp only [dictSet, if_pos rfl, slookup]
      by_cases hq : k' = q
      · exact absurd hq h
      · rw [if_neg hq, if_neg hq]
    · simp only [dictSet, if_neg hk, slookup]
      by_cases hq : k' = q
      · rw [if_pos hq, if_pos hq]
      · rw [if_neg hq, if_neg hq]
        exact ih

theorem slookup_dictPop_self (s : Sample) (k : String) :
    slookup (dictPop s k) k = none := by
  induction s with
  | nil => rfl
  | cons p rest ih =>
    obtain ⟨k', v'⟩ := p
    by_cases h : k' = k
    · simp only [dictPop, if_pos h]
      exact ih
    · simp only [dictPop, if_neg h, slookup]
      exact ih

theorem slookup_dictPop_ne (s : Sample) (k q : String) (h : k ≠ q) :
    slookup (dictPop s k) q = slookup s q := by
  induction s with
  | nil => rfl
  | cons p rest ih =>
    obtain ⟨k', v'⟩ := p
    by_cases hk : k' = k
    · subst hk
      simp only [dictPop, if_pos rfl, slookup]
      have hq : ¬ k' = q := fun hq => h hq
      rw [if_neg hq]
      exact ih
    · simp only [dictPop, if_neg hk, slookup]
      by_cases hq : k' = q
      · rw [if_pos hq, if_pos hq]
      · rw [if_neg hq, if_neg hq]
        exact ih

/-- C5: `postprocess` (1) forces the base data processor into evaluation
mode before any other step — the returned state has `train = False` and the
base postprocess is invoked with the already-forced flag `false`; (2)
returns the sample with `sample['y']` replaced by
`ground_truth - solution_prediction` (both as produced by the base
postprocess, i.e. unnormalized) and with key `'x'` removed, all other keys
untouched; (3) returns the inverse-normalized uncertainty multiplied by
the scale factor exactly when one is set, and unscaled otherwise. -/
theorem uqno_postprocess_spec (basePost : Bool → ℚ → Sample → ℚ × Sample)
    (rinv : ℚ → ℚ) (st : UQNOState) (g_hat pu : ℚ) (sample : Sample)
    (g_true : ℚ)
    (hy : slookup (basePost false g_hat sample).2 "y" = some g_true)
    (hx : (slookup (basePost false g_hat sample).2 "x").isSome) :
    ∃ pu2 sample3,
      uqno_postprocess basePost rinv st (g_hat, pu) sample =
        Except.ok ({ baseTrainMode := false, scale_factor := st.scale_factor },
          (pu2, sample3)) ∧
      pu2 = (match st.scale_factor with
        | some c => rinv pu * c
        | none => rinv pu) ∧
      slookup sample3 "y" = some (g_true - (basePost false g_hat sample).1) ∧
      slookup sample3 "x" = none ∧
      (∀ k, k ≠ "x" → k ≠ "y" →
        slookup sample3 k = slookup (basePost false g_hat sample).2 k) := by
  obtain ⟨xv, hxv⟩ := Option.isSome_iff_exists.mp hx
  refine ⟨(match st.scale_factor with
      | some c => rinv pu * c
      | none => rinv pu),
    dictPop (dictSet (basePost false g_hat sample).2 "y"
      (g_true - (basePost false g_hat sample).1)) "x", ?_, rfl, ?_, ?_, ?_⟩
  · unfold uqno_postprocess
    dsimp only
    rw [hy]
    dsimp only
    rw [slookup_dictSet_ne _ _ _ _ (by decide), hxv]
  · rw [slookup_dictPop_ne _ _ _ (by decide), slookup_dictSet_self]
  · exact slookup_dictPop_self _ _
  · intro k hkx hky
    rw [slookup_dictPop_ne _ _ _ (fun hh => hkx hh.symm),
      slookup_dictSet_ne _ _ _ _ (fun hh => hky hh.symm)]

/-- Witness for C5 with a concrete base postprocess (identity), identity
inverse transform, a set scale factor `2`, and
`sample = [(x, 1), (y, 5)]`. -/
theorem uqno_postprocess_spec_witness :
    ∃ pu2 sample3,
      uqno_postprocess (fun _ g s => (g, s)) (fun u => u)
          ⟨true, some 2⟩ (3, 7) [("x", 1), ("y", 5)] =
        Except.ok ({ baseTrainMode := false, scale_factor := some 2 },
          (pu2, sample3)) ∧
      pu2 = (match (some (2 : ℚ) : Option ℚ) with
        | some c => (fun u => u) (7 : ℚ) * c
        | none => (fun u => u) (7 : ℚ)) ∧
      slookup sample3 "y" = some (5 - 3) ∧
      slookup sample3 "x" = none ∧
      (∀ k, k ≠ "x" → k ≠ "y" →
        slookup sample3 k = slookup [("x", (1 : ℚ)), ("y", 5)] k) := by
  exact uqno_postprocess_spec (fun _ g s => (g, s)) (fun u => u) ⟨true, some 2⟩
    3 7 [("x", 1), ("y", 5)] 5 (by decide) (by decide)

/-! ### RNO.predict (src/neuralop/models/rno.py lines 131-140)

`predict(x, num_steps)` runs
`for i in range(num_steps): pred, states = self.forward(x, states);
output.append(pred); x = pred.reshape((pred.shape[0], 1, *pred.shape[1:]))`
starting from `states = [None] * self.n_layers`, and returns
`torch.stack(output, dim=1)`.  `self.forward` and the singleton-time-axis
reshape are taken as abstract function parameters (`forward`'s internals
live in `RNO_layer`, outside this file's sources); stacking a list of
per-step predictions along axis 1 is determined by the list, so the
rollout is modelled as the ordered list of predictions. -/

/-- The accumulator loop of `RNO.predict` (the Python `for` with
`output.append`). -/
def predictLoop {X P S : Type}
    (forward : X → List (Option S) → P × List (Option S)) (reshape : P → X) :
    ℕ → X → List (Option S) → List P → List P
  | 0, _, _, output => output
  | n + 1, x, states, output =>
    let pr := forward x states
    predictLoop forward reshape n (reshape pr.1) pr.2 (output ++ [pr.1])

/-- `RNO.predict`: initialize `states = [None] * n_layers`, run the loop,
stack the collected predictions. -/
def RNO_predict {X P S : Type} (n_layers : ℕ)
    (forward : X → List (Option S) → P × List (Option S)) (reshape : P → X)
    (x : X) (num_steps : ℕ) : List P :=
  predictLoop forward reshape num_steps x (List.replicate n_layers none) []

/-- The manual rollout the spec describes: call `forward` `k` times,
feeding each step's prediction (reshaped with a singleton time axis) back
as the next input and threading the returned hidden-state list by hand,
then stack the `k` predictions in order. -/
def manualRollout {X P S : Type}
    (forward : X → List (Option S) → P × List (Option S)) (reshape : P → X) :
    ℕ → X → List (Option S) → List P
  | 0, _, _ => []
  | n + 1, x, states =>
    let pr := forward x states
    pr.1 :: manualRollout forward reshape n (reshape pr.1) pr.2

theorem predictLoop_eq_append {X P S : Type}
    (forward : X → List (Option S) → P × List (Option S)) (reshape : P → X) :
    ∀ (k : ℕ) (x : X) (states : List (Option S)) (output : List P),
      predictLoop forward reshape k x states output =
        output ++ manualRollout forward reshape k x states := by
  intro k
  induction k with
  | zero =>
    intro x states output
    simp [predictLoop, manualRollout]
  | succ n ih =>
    intro x states output
    unfold predictLoop manualRollout
    rw [ih]
    simp

/-- C6: `RNO.predict(x0, k)` equals the manual rollout — calling `forward`
`k` times starting from `[None] * n_layers` hidden states, feeding each
reshaped prediction back in and threading the returned hidden-state list
by hand, then stacking the `k` predictions — for every initial input `x0`
and every `k` (in particular `k ∈ {1, 5}`), and for every `forward` and
reshape function. -/
theorem RNO_predict_eq_manual {X P S : Type} (n_layers : ℕ)
    (forward : X → List (Option S) → P × List (Option S)) (reshape : P → X)
    (x0 : X) (k : ℕ) :
    RNO_predict n_layers forward reshape x0 k =
      manualRollout forward reshape k x0 (List.replicate n_layers none) := by
  unfold RNO_predict
  rw [predictLoop_eq_append]
  simp

/-! ### RNO.__init__ (src/neuralop/models/rno.py lines 49-88)

`__init__` executes, in order: `super().__init__()`;
`self.n_modes = n_modes`; `self.n_dims = len(n_modes)`;
`self.n_layers = n_layers`; `self.width = width`; then the
domain-padding branch, attribute assignments, `self.lifting`,
`module_list` (which also reads `width`), `self.layers`,
`self.projection`.  The name `width` is neither a parameter nor assigned
anywhere in the function, nor a module-level global of rno.py, so the
fifth statement raises `NameError`.  Python resolves these names
independently of the argument values, and no argument-dependent control
flow runs before the failing statement, so the model tracks only the set
of bound names. -/

/-- One Python statement: binds `target` after reading the names in
`reads`. -/
structure InitStmt where
  target : String
  reads : List String

/-- Execute statements against a scope of bound names; the first read of
an unbound name raises `NameError`. -/
def runStmts : List String → List InitStmt → Except String (List String)
  | scope, [] => Except.ok scope
  | scope, st :: rest =>
    match st.reads.find? (fun r => !(scope.contains r)) with
    | some missing =>
        Except.error ("NameError: name " ++ missing ++ " is not defined")
    | none => runStmts (st.target :: scope) rest

/-- The parameters of `RNO.__init__` (its initially bound local names). -/
def RNO_init_params : List String :=
  ["self", "n_modes", "hidden_channels", "in_channels", "out_channels",
   "n_layers", "residual", "domain_padding", "domain_padding_mode",
   "output_scaling_factor", "fft_norm", "separable", "factorization"]

/-- The statements of `RNO.__init__` in source order, with the local names
each one reads. -/
def RNO_init_body : List InitStmt :=
  [⟨"_super_call", ["self"]⟩,
   ⟨"self.n_modes", ["self", "n_modes"]⟩,
   ⟨"self.n_dims", ["self", "n_modes"]⟩,
   ⟨"self.n_layers", ["self", "n_layers"]⟩,
   ⟨"self.width", ["self", "width"]⟩,
   ⟨"self.domain_padding",
     ["self", "domain_padding", "domain_padding_mode",
      "output_scaling_factor"]⟩,
   ⟨"self.domain_padding_mode", ["self", "domain_padding_mode"]⟩,
   ⟨"self.in_channels", ["self", "in_channels"]⟩,
   ⟨"self.out_channels", ["self", "out_channels"]⟩,
   ⟨"self.residual", ["self", "residual"]⟩,
   ⟨"self.lifting", ["self", "in_channels", "self.width"]⟩,
   ⟨"module_list",
     ["n_modes", "width", "fft_norm", "factorization", "separable",
      "n_layers"]⟩,
   ⟨"self.layers", ["self", "module_list"]⟩,
   ⟨"self.projection", ["self", "self.width", "out_channels"]⟩]

/-- Constructing an RNO: run the body of `__init__` over the parameter
scope.  The argument values are carried for faithfulness of the call
signature but cannot influence name resolution before the failing
statement. -/
def RNO_init (n_modes : List ℕ)
    (hidden_channels in_channels out_channels n_layers : ℕ)
    (residual : Bool) : Except String (List String) :=
  runStmts RNO_init_params RNO_init_body

/-- C10: for every combination of constructor arguments, `RNO.__init__`
raises `NameError` at `self.width = width` (the local name `width` is
referenced but never bound), so no RNO object is ever successfully
created through the public constructor. -/
theorem RNO_init_raises_NameError (n_modes : List ℕ)
    (hidden_channels in_channels out_channels n_layers : ℕ)
    (residual : Bool) :
    RNO_init n_modes hidden_channels in_channels out_channels n_layers
        residual =
      Except.error "NameError: name width is not defined" := by
  rfl
